import Mathlib

/-!
Verification development for the e-consul booking bot.

Shallow embedding of the repository's core data structures and algorithms:
the Free-Slot Registry (core/free_slot_db.py), the scheduler queue and its
prioritization pass (manager.py), the calendar slot acceptance guard and the
OCR token parser (core/slot_finder.py), the fuzzy text comparison and the
checkbox classifier (core/gui_driver.py), and the top-level exception
handling of a single identity attempt (SlotFinder.work).

Python dictionaries are embedded as association lists in insertion order
(a fresh key is appended at the tail, exactly as CPython dicts preserve
insertion order); Python lists as Lean lists; dates as their ordinal numbers
(Python date objects are order-isomorphic to their toordinal values, and
timedelta addition corresponds to addition of ordinals); fallible Python
code as Except values, where Except.error models a raised exception.
-/

namespace ConsulService

/-! ## Association-list embedding of Python dicts -/

/-- Lookup of a key in a dict embedded as an association list
(first binding wins; reachable states never hold duplicate keys). -/
def keyFind {α : Type} : List (String × α) → String → Option α
  | [], _ => none
  | (k, v) :: t, key => if key = k then some v else keyFind t key

/-- Embedding of the Python idiom `m.setdefault(k, dflt)` followed by an
in-place mutation `g` of the value stored at `k`: an existing binding is
rewritten to `g v`, a missing key is appended at the tail as `g dflt`. -/
def upsert {α : Type} : List (String × α) → String → α → (α → α) → List (String × α)
  | [], k, dflt, g => [(k, g dflt)]
  | (k', v) :: t, k, dflt, g =>
      if k = k' then (k', g v) :: t else (k', v) :: upsert t k dflt g

/-- Embedding of Python `list.remove(x)`: drop the first occurrence. -/
def removeFirst : List String → String → List String
  | [], _ => []
  | x :: t, d => if x = d then t else x :: removeFirst t d

/-! ## Free-Slot Registry (src/core/free_slot_db.py) -/

abbrev DateList := List String
abbrev ServiceMap := List (String × DateList)
abbrev ConsMap := List (String × ServiceMap)
abbrev Slots := List (String × ConsMap)

/-- The registry state of a fresh FreeSlotRegistry: an empty nested dict. -/
def emptySlots : Slots := []

/-- FreeSlotRegistry.add: three chained setdefault calls create the
(country, cons, service) path on demand, then the date is appended
only when not already present. -/
def registryAdd (s : Slots) (country cons service date : String) : Slots :=
  upsert s country []
    (fun cm => upsert cm cons []
      (fun sm => upsert sm service []
        (fun dl => if date ∈ dl then dl else dl ++ [date])))

/-- FreeSlotRegistry.remove: deletes the first occurrence of the date at the
(country, cons, service) path, dropping the service key when its list becomes
empty; a KeyError or ValueError (missing path or missing date) is swallowed,
leaving the state unchanged. -/
def removeSrv (sm : ServiceMap) (service date : String) : ServiceMap :=
  match sm with
  | [] => []
  | (k, dl) :: t =>
      if service = k then
        if date ∈ dl then
          let dl' := removeFirst dl date
          if dl' = [] then t else (k, dl') :: t
        else (k, dl) :: t
      else (k, dl) :: removeSrv t service date

def removeCons (cm : ConsMap) (cons service date : String) : ConsMap :=
  match cm with
  | [] => []
  | (k, sm) :: t =>
      if cons = k then (k, removeSrv sm service date) :: t
      else (k, sm) :: removeCons t cons service date

def registryRemove (s : Slots) (country cons service date : String) : Slots :=
  match s with
  | [] => []
  | (k, cm) :: t =>
      if country = k then (k, removeCons cm cons service date) :: t
      else (k, cm) :: registryRemove t country cons service date

/-- The date list recorded at a full (country, cons, service) path,
when the whole path of keys is present. -/
def datesAt? (s : Slots) (country cons service : String) : Option DateList :=
  match keyFind s country with
  | none => none
  | some cm =>
      match keyFind cm cons with
      | none => none
      | some sm => keyFind sm service

/-- The date list at a path, defaulting to the empty list off-path. -/
def datesAt (s : Slots) (country cons service : String) : DateList :=
  (datesAt? s country cons service).getD []

/-- The key-presence test performed by FreeSlotRegistry.has_match:
`country in slots and cons in slots[country] and service in slots[country][cons]`. -/
def pathPresent (s : Slots) (country cons service : String) : Bool :=
  (datesAt? s country cons service).isSome

/-! ## Identity records (the UserConfig fields the core logic reads) -/

/-- The fields of bot_io.yaml_loader.UserConfig consumed by the scheduler,
the registry and the calendar algorithm.  Dates are ordinals; min_date and
relative_days are optional exactly as in the dataclass. -/
structure UserC where
  alias_ : String
  country : String
  consulates : List String
  services : List String
  min_date : Option Nat := none
  relative_days : Option Nat := none
deriving DecidableEq, Repr

/-- FreeSlotRegistry.has_match: true iff some (consulate, service) pair of the
identity has its full key path present under the identity's country. -/
def hasMatch (s : Slots) (u : UserC) : Bool :=
  u.consulates.any (fun cons => u.services.any (fun srv =>
    pathPresent s u.country cons srv))

/-- Registry states reachable from the fresh registry by add/remove calls. -/
inductive Reachable : Slots → Prop
  | empty : Reachable emptySlots
  | add (s : Slots) (country cons service date : String) :
      Reachable s → Reachable (registryAdd s country cons service date)
  | remove (s : Slots) (country cons service date : String) :
      Reachable s → Reachable (registryRemove s country cons service date)

/-! ### Structural invariant of reachable registry states -/

/-- Date lists stored in the registry are non-empty and duplicate-free. -/
def DatesOK (dl : DateList) : Prop := dl ≠ [] ∧ dl.Nodup

/-- Service maps: distinct keys, all stored date lists well formed. -/
def SrvOK (sm : ServiceMap) : Prop :=
  (sm.map Prod.fst).Nodup ∧ ∀ p ∈ sm, DatesOK p.2

/-- Consulate maps: distinct keys, all service maps well formed. -/
def ConsOK (cm : ConsMap) : Prop :=
  (cm.map Prod.fst).Nodup ∧ ∀ p ∈ cm, SrvOK p.2

/-- Registry roots: distinct keys, all consulate maps well formed. -/
def SlotsOK (s : Slots) : Prop :=
  (s.map Prod.fst).Nodup ∧ ∀ p ∈ s, ConsOK p.2

/-! ### keyFind / upsert / remove lemmas -/

theorem keyFind_mem {α : Type} {m : List (String × α)} {k : String} {v : α}
    (h : keyFind m k = some v) : (k, v) ∈ m := by
  induction m with
  | nil => simp [keyFind] at h
  | cons p t ih =>
      obtain ⟨k', v'⟩ := p
      by_cases hk : k = k'
      · subst hk
        simp [keyFind] at h
        simp [h]
      · simp [keyFind, hk] at h
        exact List.mem_cons_of_mem _ (ih h)

theorem upsert_found {α : Type} {m : List (String × α)} {k : String} {v : α}
    (dflt : α) (g : α → α) (h : keyFind m k = some v) (hg : g v = v) :
    upsert m k dflt g = m := by
  induction m with
  | nil => simp [keyFind] at h
  | cons p t ih =>
      obtain ⟨k', v'⟩ := p
      by_cases hk : k = k'
      · subst hk
        simp [keyFind] at h
        subst h
        simp [upsert, hg]
      · simp [keyFind, hk] at h
        simp [upsert, hk, ih h]

theorem keyFind_upsert_self {α : Type} (m : List (String × α)) (k : String)
    (dflt : α) (g : α → α) :
    keyFind (upsert m k dflt g) k = some (g ((keyFind m k).getD dflt)) := by
  induction m with
  | nil => simp [upsert, keyFind]
  | cons p t ih =>
      obtain ⟨k', v'⟩ := p
      by_cases hk : k = k'
      · subst hk
        simp [upsert, keyFind]
      · simp [upsert, keyFind, hk, ih]

theorem keyFind_upsert_other {α : Type} (m : List (String × α)) (k k' : String)
    (dflt : α) (g : α → α) (hne : k' ≠ k) :
    keyFind (upsert m k dflt g) k' = keyFind m k' := by
  induction m with
  | nil => simp [upsert, keyFind, hne]
  | cons p t ih =>
      obtain ⟨k₀, v₀⟩ := p
      by_cases hk : k = k₀
      · subst hk
        by_cases hk' : k' = k
        · exact absurd hk' hne
        · simp [upsert, keyFind, hk']
      · by_cases hk' : k' = k₀
        · subst hk'
          simp [upsert, hk, keyFind]
        · simp [upsert, hk, keyFind, hk', ih]

theorem keyFind_none_iff {α : Type} (m : List (String × α)) (k : String) :
    keyFind m k = none ↔ k ∉ m.map Prod.fst := by
  induction m with
  | nil => simp [keyFind]
  | cons p t ih =>
      obtain ⟨k', v'⟩ := p
      by_cases hk : k = k'
      · subst hk
        simp [keyFind]
      · simp [keyFind, hk, ih]

theorem upsert_keys_found {α : Type} {m : List (String × α)} {k : String} {v : α}
    (dflt : α) (g : α → α) (h : keyFind m k = some v) :
    (upsert m k dflt g).map Prod.fst = m.map Prod.fst := by
  induction m with
  | nil => simp [keyFind] at h
  | cons p t ih =>
      obtain ⟨k', v'⟩ := p
      by_cases hk : k = k'
      · subst hk
        simp [upsert]
      · simp [keyFind, hk] at h
        simp [upsert, hk, ih h]

theorem upsert_keys_missing {α : Type} {m : List (String × α)} {k : String}
    (dflt : α) (g : α → α) (h : keyFind m k = none) :
    (upsert m k dflt g).map Prod.fst = m.map Prod.fst ++ [k] := by
  induction m with
  | nil => simp [upsert]
  | cons p t ih =>
      obtain ⟨k', v'⟩ := p
      by_cases hk : k = k'
      · subst hk
        simp [keyFind] at h
      · simp [keyFind, hk] at h
        simp [upsert, hk, ih h]

theorem upsert_keys_nodup {α : Type} {m : List (String × α)} {k : String}
    (dflt : α) (g : α → α) (h : (m.map Prod.fst).Nodup) :
    ((upsert m k dflt g).map Prod.fst).Nodup := by
  cases hf : keyFind m k with
  | some v => rw [upsert_keys_found dflt g hf]; exact h
  | none =>
      rw [upsert_keys_missing dflt g hf]
      refine h.append (List.nodup_singleton k) ?_
      rw [keyFind_none_iff] at hf
      simp [List.disjoint_left, hf]

theorem upsert_forall {α : Type} (P : α → Prop) (m : List (String × α))
    (k : String) (dflt : α) (g : α → α)
    (hm : ∀ p ∈ m, P p.2) (hd : P (g dflt)) (hg : ∀ v, P v → P (g v)) :
    ∀ p ∈ upsert m k dflt g, P p.2 := by
  induction m with
  | nil =>
      intro p hp
      simp [upsert] at hp
      simp [hp, hd]
  | cons q t ih =>
      obtain ⟨k', v'⟩ := q
      by_cases hk : k = k'
      · subst hk
        intro p hp
        simp only [upsert, if_pos rfl] at hp
        rcases List.mem_cons.mp hp with h1 | h2
        · subst h1; exact hg v' (hm _ (List.mem_cons_self _ _))
        · exact hm _ (List.mem_cons_of_mem _ h2)
      · intro p hp
        simp only [upsert, if_neg hk] at hp
        rcases List.mem_cons.mp hp with h1 | h2
        · subst h1; exact hm _ (List.mem_cons_self _ _)
        · exact ih (fun q hq => hm _ (List.mem_cons_of_mem _ hq)) p h2

/-! ### The no-op cases of FreeSlotRegistry.remove -/

theorem removeSrv_key_missing {sm : ServiceMap} {sv : String} (d : String)
    (h : keyFind sm sv = none) : removeSrv sm sv d = sm := by
  induction sm with
  | nil => rfl
  | cons p t ih =>
      obtain ⟨k, dl⟩ := p
      by_cases hk : sv = k
      · subst hk; simp [keyFind] at h
      · simp [keyFind, hk] at h
        simp [removeSrv, hk, ih h]

theorem removeSrv_not_mem {sm : ServiceMap} {sv d : String} {dl : DateList}
    (h : keyFind sm sv = some dl) (hd : d ∉ dl) : removeSrv sm sv d = sm := by
  induction sm with
  | nil => simp [keyFind] at h
  | cons p t ih =>
      obtain ⟨k, dl'⟩ := p
      by_cases hk : sv = k
      · subst hk
        simp [keyFind] at h
        subst h
        simp [removeSrv, hd]
      · simp [keyFind, hk] at h
        simp [removeSrv, hk, ih h]

theorem removeCons_key_missing {cm : ConsMap} {co : String} (sv d : String)
    (h : keyFind cm co = none) : removeCons cm co sv d = cm := by
  induction cm with
  | nil => rfl
  | cons p t ih =>
      obtain ⟨k, sm⟩ := p
      by_cases hk : co = k
      · subst hk; simp [keyFind] at h
      · simp [keyFind, hk] at h
        simp [removeCons, hk, ih h]

theorem removeCons_inner_eq {cm : ConsMap} {co : String} (sv d : String)
    {sm : ServiceMap} (h : keyFind cm co = some sm)
    (hs : removeSrv sm sv d = sm) : removeCons cm co sv d = cm := by
  induction cm with
  | nil => simp [keyFind] at h
  | cons p t ih =>
      obtain ⟨k, sm'⟩ := p
      by_cases hk : co = k
      · subst hk
        simp [keyFind] at h
        subst h
        simp [removeCons, hs]
      · simp [keyFind, hk] at h
        simp [removeCons, hk, ih h]

theorem registryRemove_country_missing {s : Slots} {c : String} (co sv d : String)
    (h : keyFind s c = none) : registryRemove s c co sv d = s := by
  induction s with
  | nil => rfl
  | cons p t ih =>
      obtain ⟨k, cm⟩ := p
      by_cases hk : c = k
      · subst hk; simp [keyFind] at h
      · simp [keyFind, hk] at h
        simp [registryRemove, hk, ih h]

theorem registryRemove_inner_eq {s : Slots} {c : String} (co sv d : String)
    {cm : ConsMap} (h : keyFind s c = some cm)
    (hs : removeCons cm co sv d = cm) : registryRemove s c co sv d = s := by
  induction s with
  | nil => simp [keyFind] at h
  | cons p t ih =>
      obtain ⟨k, cm'⟩ := p
      by_cases hk : c = k
      · subst hk
        simp [keyFind] at h
        subst h
        simp [registryRemove, hs]
      · simp [keyFind, hk] at h
        simp [registryRemove, hk, ih h]

/-- FreeSlotRegistry.add of an already-recorded date is the identity. -/
theorem registryAdd_recorded {s : Slots} {c co sv d : String}
    (h : d ∈ datesAt s c co sv) : registryAdd s c co sv d = s := by
  unfold datesAt datesAt? at h
  cases hc : keyFind s c with
  | none => rw [hc] at h; simp at h
  | some cm =>
      rw [hc] at h
      dsimp only at h
      cases hco : keyFind cm co with
      | none => rw [hco] at h; simp at h
      | some sm =>
          rw [hco] at h
          dsimp only at h
          cases hsv : keyFind sm sv with
          | none => rw [hsv] at h; simp at h
          | some dl =>
              rw [hsv] at h
              simp only [Option.getD_some] at h
              unfold registryAdd
              refine upsert_found _ _ hc ?_
              refine upsert_found _ _ hco ?_
              refine upsert_found _ _ hsv ?_
              simp [h]

/-- FreeSlotRegistry.remove of a date that is not recorded is the identity
(the KeyError / ValueError is swallowed). -/
theorem registryRemove_unrecorded {s : Slots} {c co sv d : String}
    (h : d ∉ datesAt s c co sv) : registryRemove s c co sv d = s := by
  unfold datesAt datesAt? at h
  cases hc : keyFind s c with
  | none => exact registryRemove_country_missing co sv d hc
  | some cm =>
      rw [hc] at h
      dsimp only at h
      refine registryRemove_inner_eq co sv d hc ?_
      cases hco : keyFind cm co with
      | none => exact removeCons_key_missing sv d hco
      | some sm =>
          rw [hco] at h
          dsimp only at h
          refine removeCons_inner_eq sv d hco ?_
          cases hsv : keyFind sm sv with
          | none => exact removeSrv_key_missing d hsv
          | some dl =>
              rw [hsv] at h
              simp only [Option.getD_some] at h
              exact removeSrv_not_mem hsv h

/-! ### Preservation of the structural invariant -/

theorem removeFirst_sublist (dl : DateList) (d : String) :
    List.Sublist (removeFirst dl d) dl := by
  induction dl with
  | nil => simp [removeFirst]
  | cons x t ih =>
      by_cases hx : x = d
      · simp only [removeFirst, if_pos hx]
        exact List.sublist_cons_self x t
      · simp only [removeFirst, if_neg hx]
        exact ih.cons₂ x

theorem registryAdd_DatesOK {dl : DateList} (d : String) (h : DatesOK dl) :
    DatesOK (if d ∈ dl then dl else dl ++ [d]) := by
  by_cases hd : d ∈ dl
  · simpa [hd] using h
  · refine if_neg hd ▸ ⟨by simp, ?_⟩
    exact List.Nodup.append h.2 (List.nodup_singleton d) (by simp [List.disjoint_left, hd])

theorem registryAdd_singleton_DatesOK (d : String) :
    DatesOK (if d ∈ ([] : DateList) then [] else [] ++ [d]) := by
  simp [DatesOK]

theorem registryAdd_SrvOK {sm : ServiceMap} (sv d : String) (h : SrvOK sm) :
    SrvOK (upsert sm sv [] (fun dl => if d ∈ dl then dl else dl ++ [d])) := by
  refine ⟨upsert_keys_nodup _ _ h.1, ?_⟩
  refine upsert_forall DatesOK sm sv [] _ h.2 ?_ ?_
  · exact registryAdd_singleton_DatesOK d
  · exact fun v hv => registryAdd_DatesOK d hv

theorem registryAdd_ConsOK {cm : ConsMap} (co sv d : String) (h : ConsOK cm) :
    ConsOK (upsert cm co []
      (fun sm => upsert sm sv [] (fun dl => if d ∈ dl then dl else dl ++ [d]))) := by
  refine ⟨upsert_keys_nodup _ _ h.1, ?_⟩
  refine upsert_forall SrvOK cm co [] _ h.2 ?_ ?_
  · exact registryAdd_SrvOK sv d ⟨List.nodup_nil, by simp⟩
  · exact fun v hv => registryAdd_SrvOK sv d hv

theorem registryAdd_SlotsOK {s : Slots} (c co sv d : String) (h : SlotsOK s) :
    SlotsOK (registryAdd s c co sv d) := by
  refine ⟨upsert_keys_nodup _ _ h.1, ?_⟩
  refine upsert_forall ConsOK s c [] _ h.2 ?_ ?_
  · exact registryAdd_ConsOK co sv d ⟨List.nodup_nil, by simp⟩
  · exact fun v hv => registryAdd_ConsOK co sv d hv

theorem removeSrv_keys_sublist (sm : ServiceMap) (sv d : String) :
    List.Sublist ((removeSrv sm sv d).map Prod.fst) (sm.map Prod.fst) := by
  induction sm with
  | nil => simp [removeSrv]
  | cons p t ih =>
      obtain ⟨k, dl⟩ := p
      by_cases hk : sv = k
      · by_cases hd : d ∈ dl
        · by_cases he : removeFirst dl d = []
          · simp only [removeSrv, if_pos hk, if_pos hd, he, if_pos rfl]
            exact List.sublist_cons_self k (t.map Prod.fst)
          · simp only [removeSrv, if_pos hk, if_pos hd, if_neg he, List.map_cons]
            exact List.Sublist.refl _
        · simp only [removeSrv, if_pos hk, if_neg hd, List.map_cons]
          exact List.Sublist.refl _
      · simp only [removeSrv, if_neg hk, List.map_cons]
        exact ih.cons₂ k

theorem removeSrv_SrvOK {sm : ServiceMap} (sv d : String) (h : SrvOK sm) :
    SrvOK (removeSrv sm sv d) := by
  induction sm with
  | nil => simpa [removeSrv] using h
  | cons p t ih =>
      obtain ⟨k, dl⟩ := p
      obtain ⟨hkeys, hvals⟩ := h
      have hkeys' : (t.map Prod.fst).Nodup := (List.nodup_cons.mp hkeys).2
      have hknot : k ∉ t.map Prod.fst := (List.nodup_cons.mp hkeys).1
      have hvals' : ∀ p ∈ t, DatesOK p.2 := fun p hp => hvals p (List.mem_cons_of_mem _ hp)
      by_cases hk : sv = k
      · by_cases hd : d ∈ dl
        · by_cases he : removeFirst dl d = []
          · simp only [removeSrv, if_pos hk, if_pos hd, he, if_pos rfl]
            exact ⟨hkeys', hvals'⟩
          · simp only [removeSrv, if_pos hk, if_pos hd, if_neg he]
            refine ⟨List.nodup_cons.mpr ⟨hknot, hkeys'⟩, ?_⟩
            intro p hp
            rcases List.mem_cons.mp hp with h1 | h2
            · subst h1
              exact ⟨he, ((hvals _ (List.mem_cons_self _ _)).2).sublist
                (removeFirst_sublist dl d)⟩
            · exact hvals' p h2
        · simp only [removeSrv, if_pos hk, if_neg hd]
          exact ⟨hkeys, hvals⟩
      · simp only [removeSrv, if_neg hk]
        have hsub := removeSrv_keys_sublist t sv d
        refine ⟨List.nodup_cons.mpr ⟨fun hc => hknot (hsub.mem hc),
          (ih ⟨hkeys', hvals'⟩).1⟩, ?_⟩
        intro p hp
        rcases List.mem_cons.mp hp with h1 | h2
        · subst h1; exact hvals _ (List.mem_cons_self _ _)
        · exact (ih ⟨hkeys', hvals'⟩).2 p h2

theorem removeCons_keys (cm : ConsMap) (co sv d : String) :
    (removeCons cm co sv d).map Prod.fst = cm.map Prod.fst := by
  induction cm with
  | nil => simp [removeCons]
  | cons p t ih =>
      obtain ⟨k, sm⟩ := p
      by_cases hk : co = k
      · simp [removeCons, hk]
      · simp [removeCons, hk, ih]

theorem removeCons_ConsOK {cm : ConsMap} (co sv d : String) (h : ConsOK cm) :
    ConsOK (removeCons cm co sv d) := by
  induction cm with
  | nil => simpa [removeCons] using h
  | cons p t ih =>
      obtain ⟨k, sm⟩ := p
      obtain ⟨hkeys, hvals⟩ := h
      have hkeys' : (t.map Prod.fst).Nodup := (List.nodup_cons.mp hkeys).2
      have hknot : k ∉ t.map Prod.fst := (List.nodup_cons.mp hkeys).1
      have hvals' : ∀ p ∈ t, SrvOK p.2 := fun p hp => hvals p (List.mem_cons_of_mem _ hp)
      by_cases hk : co = k
      · simp only [removeCons, if_pos hk]
        refine ⟨List.nodup_cons.mpr ⟨hknot, hkeys'⟩, ?_⟩
        intro p hp
        rcases List.mem_cons.mp hp with h1 | h2
        · subst h1
          exact removeSrv_SrvOK sv d (hvals _ (List.mem_cons_self _ _))
        · exact hvals' p h2
      · simp only [removeCons, if_neg hk]
        refine ⟨List.nodup_cons.mpr ⟨by rw [removeCons_keys]; exact hknot,
          (ih ⟨hkeys', hvals'⟩).1⟩, ?_⟩
        intro p hp
        rcases List.mem_cons.mp hp with h1 | h2
        · subst h1; exact hvals _ (List.mem_cons_self _ _)
        · exact (ih ⟨hkeys', hvals'⟩).2 p h2

theorem registryRemove_keys (s : Slots) (c co sv d : String) :
    (registryRemove s c co sv d).map Prod.fst = s.map Prod.fst := by
  induction s with
  | nil => simp [registryRemove]
  | cons p t ih =>
      obtain ⟨k, cm⟩ := p
      by_cases hk : c = k
      · simp [registryRemove, hk]
      · simp [registryRemove, hk, ih]

theorem registryRemove_SlotsOK {s : Slots} (c co sv d : String) (h : SlotsOK s) :
    SlotsOK (registryRemove s c co sv d) := by
  induction s with
  | nil => simpa [registryRemove] using h
  | cons p t ih =>
      obtain ⟨k, cm⟩ := p
      obtain ⟨hkeys, hvals⟩ := h
      have hkeys' : (t.map Prod.fst).Nodup := (List.nodup_cons.mp hkeys).2
      have hknot : k ∉ t.map Prod.fst := (List.nodup_cons.mp hkeys).1
      have hvals' : ∀ p ∈ t, ConsOK p.2 := fun p hp => hvals p (List.mem_cons_of_mem _ hp)
      by_cases hk : c = k
      · simp only [registryRemove, if_pos hk]
        refine ⟨List.nodup_cons.mpr ⟨hknot, hkeys'⟩, ?_⟩
        intro p hp
        rcases List.mem_cons.mp hp with h1 | h2
        · subst h1
          exact removeCons_ConsOK co sv d (hvals _ (List.mem_cons_self _ _))
        · exact hvals' p h2
      · simp only [registryRemove, if_neg hk]
        refine ⟨List.nodup_cons.mpr ⟨by rw [registryRemove_keys]; exact hknot,
          (ih ⟨hkeys', hvals'⟩).1⟩, ?_⟩
        intro p hp
        rcases List.mem_cons.mp hp with h1 | h2
        · subst h1; exact hvals _ (List.mem_cons_self _ _)
        · exact (ih ⟨hkeys', hvals'⟩).2 p h2

/-- Every reachable registry state satisfies the structural invariant. -/
theorem reachable_SlotsOK {s : Slots} (h : Reachable s) : SlotsOK s := by
  induction h with
  | empty => exact ⟨List.nodup_nil, by simp [emptySlots]⟩
  | add s c co sv d _ ih => exact registryAdd_SlotsOK c co sv d ih
  | remove s c co sv d _ ih => exact registryRemove_SlotsOK c co sv d ih

/-- In a well-formed state, every stored date list is non-empty and
duplicate-free. -/
theorem slotsOK_datesAt {s : Slots} (h : SlotsOK s) {c co sv : String}
    {dl : DateList} (hd : datesAt? s c co sv = some dl) : DatesOK dl := by
  unfold datesAt? at hd
  cases hc : keyFind s c with
  | none => rw [hc] at hd; simp at hd
  | some cm =>
      rw [hc] at hd
      dsimp only at hd
      cases hco : keyFind cm co with
      | none => rw [hco] at hd; simp at hd
      | some sm =>
          rw [hco] at hd
          dsimp only at hd
          have hcm : ConsOK cm := h.2 _ (keyFind_mem hc)
          have hsm : SrvOK sm := hcm.2 _ (keyFind_mem hco)
          exact hsm.2 _ (keyFind_mem hd)

/-- In a well-formed state, has_match holds exactly when some requested
(consulate, service) pair stores a non-empty date list. -/
theorem hasMatch_char {s : Slots} (hs : SlotsOK s) (u : UserC) :
    hasMatch s u = true ↔ ∃ co ∈ u.consulates, ∃ sv ∈ u.services,
      datesAt s u.country co sv ≠ [] := by
  unfold hasMatch
  simp only [List.any_eq_true]
  constructor
  · rintro ⟨co, hco, sv, hsv, hp⟩
    refine ⟨co, hco, sv, hsv, ?_⟩
    unfold pathPresent at hp
    cases hd : datesAt? s u.country co sv with
    | none => rw [hd] at hp; simp at hp
    | some dl =>
        have hOK := slotsOK_datesAt hs hd
        unfold datesAt
        rw [hd]
        simpa using hOK.1
  · rintro ⟨co, hco, sv, hsv, hne⟩
    refine ⟨co, hco, sv, hsv, ?_⟩
    unfold pathPresent
    unfold datesAt at hne
    cases hd : datesAt? s u.country co sv with
    | none => rw [hd] at hne; simp at hne
    | some dl => simp [hd]

/-- Claim C7: on every registry state, FreeSlotRegistry.add of an
already-recorded (country, consulate, service, date) tuple leaves the
registry unchanged; FreeSlotRegistry.remove of an unrecorded tuple leaves it
unchanged without raising; and on every state reachable from the fresh
registry, has_match(identity) is true iff at least one (consulate, service)
pair from the identity's lists stores a non-empty date set under the
identity's country. -/
theorem claim_C7 :
    (∀ (s : Slots) (c co sv d : String), d ∈ datesAt s c co sv →
        registryAdd s c co sv d = s)
    ∧ (∀ (s : Slots) (c co sv d : String), d ∉ datesAt s c co sv →
        registryRemove s c co sv d = s)
    ∧ (∀ (s : Slots) (u : UserC), Reachable s →
        (hasMatch s u = true ↔ ∃ co ∈ u.consulates, ∃ sv ∈ u.services,
          datesAt s u.country co sv ≠ [])) :=
  ⟨fun _ _ _ _ _ h => registryAdd_recorded h,
   fun _ _ _ _ _ h => registryRemove_unrecorded h,
   fun _ u hr => hasMatch_char (reachable_SlotsOK hr) u⟩

/-- A one-entry registry state used to instantiate the registry theorems. -/
def regW : Slots := registryAdd emptySlots "UA" "Krakow" "passport" "01.07.2025"

theorem regW_reachable : Reachable regW :=
  Reachable.add _ _ _ _ _ Reachable.empty

/-- An identity whose (consulate, service) lists hit the regW entry. -/
def userW : UserC :=
  { alias_ := "bob", country := "UA", consulates := ["Krakow"],
    services := ["passport"] }

theorem claim_C7_witness :
    ("01.07.2025" ∈ datesAt regW "UA" "Krakow" "passport"
      ∧ registryAdd regW "UA" "Krakow" "passport" "01.07.2025" = regW)
    ∧ ("02.07.2025" ∉ datesAt regW "UA" "Krakow" "passport"
      ∧ registryRemove regW "UA" "Krakow" "passport" "02.07.2025" = regW)
    ∧ hasMatch regW userW = true :=
  ⟨⟨by decide, claim_C7.1 regW "UA" "Krakow" "passport" "01.07.2025" (by decide)⟩,
   ⟨by decide, claim_C7.2.1 regW "UA" "Krakow" "passport" "02.07.2025" (by decide)⟩,
   (claim_C7.2.2 regW userW regW_reachable).mpr
     ⟨"Krakow", by decide, "passport", by decide, by decide⟩⟩

/-- Claim C10: starting from the empty registry, after any sequence of add
and remove operations, every (country, consulate, service) key path present
in the nested slot map stores a non-empty, duplicate-free date list. -/
theorem claim_C10 : ∀ (s : Slots), Reachable s →
    ∀ (c co sv : String) (dl : DateList),
      datesAt? s c co sv = some dl → dl ≠ [] ∧ dl.Nodup :=
  fun _ hs _ _ _ _ hd => slotsOK_datesAt (reachable_SlotsOK hs) hd

theorem claim_C10_witness :
    datesAt? regW "UA" "Krakow" "passport" = some ["01.07.2025"]
    ∧ (["01.07.2025"] ≠ [] ∧ (["01.07.2025"] : DateList).Nodup) :=
  ⟨by decide,
   claim_C10 regW regW_reachable "UA" "Krakow" "passport" ["01.07.2025"] (by decide)⟩

/-! ## Work queue (manager.py, class UserQueue) -/

/-- Embedding of Python `dict.pop(k, None)`: drop the binding when present. -/
def eraseKey {α : Type} : List (String × α) → String → List (String × α)
  | [], _ => []
  | (k, v) :: t, key => if key = k then t else (k, v) :: eraseKey t key

/-- UserQueue: the work deque plus the alias-to-config dict, as held by the
two fields _dq and _map. -/
structure UQueue where
  dq : List UserC
  map : List (String × UserC)
deriving DecidableEq, Repr

/-- UserQueue.__init__ on an initial config list (aliases assumed distinct,
as produced by one YAML file per alias). -/
def mkQueue (users : List UserC) : UQueue :=
  { dq := users, map := users.map (fun u => (u.alias_, u)) }

/-- UserQueue.pop_left: pops the deque only; the _map is left untouched. -/
def UQueue.popLeft (q : UQueue) : Option UserC × UQueue :=
  match q.dq with
  | [] => (none, q)
  | u :: t => (some u, { q with dq := t })

/-- UserQueue.exists: alias membership in _map. -/
def UQueue.existsAlias (q : UQueue) (a : String) : Bool :=
  (keyFind q.map a).isSome

/-- UserQueue.append: appends to the deque and the dict only when the alias
is not already a key of _map. -/
def UQueue.append (q : UQueue) (u : UserC) : UQueue :=
  if (keyFind q.map u.alias_).isSome then q
  else { dq := q.dq ++ [u], map := q.map ++ [(u.alias_, u)] }

/-- UserQueue.remove: rebuilds the deque without the alias and pops the
alias from _map. -/
def UQueue.removeAlias (q : UQueue) (a : String) : UQueue :=
  { dq := q.dq.filter (fun u => u.alias_ ≠ a), map := eraseKey q.map a }

/-- Python truthiness of the `booked` result (bool or None). -/
def truthy : Option Bool → Bool
  | some true => true
  | _ => false

/-- The tail of one scheduler-loop iteration in manager.main, after
SlotFinder.work returned `booked`: on truthy remove the user for good,
otherwise re-append it when its alias still exists in the map. -/
def schedulerRequeue (q : UQueue) (u : UserC) (booked : Option Bool) : UQueue :=
  if truthy booked then q.removeAlias u.alias_
  else if q.existsAlias u.alias_ then q.append u else q

/-- The identity used to exercise the requeue path. -/
def userAlice : UserC :=
  { alias_ := "alice", country := "UA", consulates := ["Krakow"],
    services := ["passport"] }

/-- Claim C1 (refuted by the code, see the divergence record): after
pop_left, the alias is still a key of _map, so the failure branch calls
append whose guard `alias not in _map` fails; the identity is NOT appended
back, and the work deque no longer contains any entry with that alias.
This theorem evaluates the scheduler iteration at the failing input: a
single-user queue whose attempt returns not-booked ends with an empty
deque even though exists() reported true and append was called. -/
theorem claim_C1 :
    ((mkQueue [userAlice]).popLeft.1 = some userAlice)
    ∧ ((mkQueue [userAlice]).popLeft.2.existsAlias "alice" = true)
    ∧ ((mkQueue [userAlice]).popLeft.2.append userAlice
        = (mkQueue [userAlice]).popLeft.2)
    ∧ ((schedulerRequeue (mkQueue [userAlice]).popLeft.2 userAlice
        (some false)).dq = []) := by
  decide

/-! ## Priority reordering pass (manager.main, the block under queue._lock) -/

/-- The prioritization pass of the scheduler loop: collect the users with a
registry match in queue order, then for each one remove it from the deque
and push it at the front. -/
def prioritizePass (reg : Slots) (dq : List UserC) : List UserC :=
  let priority_users := dq.filter (fun u => hasMatch reg u)
  priority_users.foldl (fun d u => u :: d.erase u) dq

theorem foldl_moveFront {α : Type} [DecidableEq α] :
    ∀ (xs acc dq : List α), xs.Nodup → (∀ x ∈ xs, x ∉ acc) →
      xs.foldl (fun d u => u :: d.erase u) (acc ++ dq)
        = xs.reverse ++ acc ++ xs.foldl List.erase dq := by
  intro xs
  induction xs with
  | nil => intro acc dq _ _; simp
  | cons x xs ih =>
      intro acc dq hnd hacc
      have hx : x ∉ acc := hacc x (List.mem_cons_self _ _)
      have h1 : (acc ++ dq).erase x = acc ++ dq.erase x :=
        List.erase_append_right dq hx
      simp only [List.foldl_cons, h1]
      have h2 : x :: (acc ++ dq.erase x) = (x :: acc) ++ dq.erase x := rfl
      rw [h2, ih (x :: acc) (dq.erase x) (List.nodup_cons.mp hnd).2 ?hacc]
      · simp [List.append_assoc]
      · intro y hy
        simp only [List.mem_cons]
        push_neg
        exact ⟨fun he => (List.nodup_cons.mp hnd).1 (he ▸ hy),
          fun hc => hacc y (List.mem_cons_of_mem _ hy) hc⟩

theorem foldl_erase_cons_not_mem {α : Type} [DecidableEq α] :
    ∀ (xs : List α) (a : α) (l : List α), a ∉ xs →
      xs.foldl List.erase (a :: l) = a :: xs.foldl List.erase l := by
  intro xs
  induction xs with
  | nil => intro a l _; rfl
  | cons x xs ih =>
      intro a l ha
      have hxa : x ≠ a := fun he => ha (by simp [he])
      have h1 : (a :: l).erase x = a :: l.erase x := by
        rw [List.erase_cons_tail]
        simp [hxa.symm]
      simp only [List.foldl_cons, h1]
      exact ih a (l.erase x) (fun hc => ha (List.mem_cons_of_mem _ hc))

theorem foldl_erase_filter {α : Type} [DecidableEq α] :
    ∀ (dq : List α) (p : α → Bool), dq.Nodup →
      (dq.filter p).foldl List.erase dq = dq.filter (fun u => !(p u)) := by
  intro dq
  induction dq with
  | nil => intro p _; rfl
  | cons a t ih =>
      intro p hnd
      have hat : a ∉ t := (List.nodup_cons.mp hnd).1
      have hnm : a ∉ t.filter p := fun hc => hat (List.mem_of_mem_filter hc)
      by_cases hp : p a
      · rw [List.filter_cons_of_pos hp, List.filter_cons_of_neg (by simp [hp])]
        simp only [List.foldl_cons, List.erase_cons_head]
        exact ih p (List.nodup_cons.mp hnd).2
      · rw [List.filter_cons_of_neg (by simp [hp]),
          List.filter_cons_of_pos (by simp [hp])]
        rw [foldl_erase_cons_not_mem _ a t hnm, ih p (List.nodup_cons.mp hnd).2]

/-- Claim C3, counterexample: on queue [A, B, C, D] with registry hits on B
and D, the prioritization pass produces [D, B, A, C]; the claimed result
[B, D, A, C] (relative order among the matched users preserved) is NOT what
the pass computes. -/
def uA : UserC :=
  { alias_ := "A", country := "UA", consulates := ["cA"], services := ["sA"] }

def uB : UserC :=
  { alias_ := "B", country := "UA", consulates := ["cB"], services := ["sB"] }

def uC : UserC :=
  { alias_ := "C", country := "UA", consulates := ["cC"], services := ["sC"] }

def uD : UserC :=
  { alias_ := "D", country := "UA", consulates := ["cD"], services := ["sD"] }

/-- A registry state whose entries match identities B and D only. -/
def regBD : Slots :=
  registryAdd (registryAdd emptySlots "UA" "cB" "sB" "05.07.2025")
    "UA" "cD" "sD" "06.07.2025"

/-- Claim C3 as stated is false: the matched identities surface in reversed
relative order; with hits on B and D the queue becomes [D, B, A, C], not
[B, D, A, C]. -/
theorem claim_C3_counterexample :
    hasMatch regBD uA = false ∧ hasMatch regBD uB = true
    ∧ hasMatch regBD uC = false ∧ hasMatch regBD uD = true
    ∧ prioritizePass regBD [uA, uB, uC, uD] = [uD, uB, uA, uC]
    ∧ [uD, uB, uA, uC] ≠ [uB, uD, uA, uC] := by
  decide

/-- Claim C3 amended: the prioritization pass moves the identities with a
registry match to the front in REVERSED relative order (the last matched
identity ends up first), while the relative order of the non-matching rest
is preserved. -/
theorem claim_C3_amended : ∀ (reg : Slots) (dq : List UserC), dq.Nodup →
    prioritizePass reg dq =
      (dq.filter (fun u => hasMatch reg u)).reverse
        ++ dq.filter (fun u => !(hasMatch reg u)) := by
  intro reg dq hnd
  have h1 := foldl_moveFront (dq.filter (fun u => hasMatch reg u)) [] dq
    (hnd.filter _) (by simp)
  simp only [List.nil_append] at h1
  show List.foldl (fun d u => u :: d.erase u) dq
      (List.filter (fun u => hasMatch reg u) dq)
    = (dq.filter (fun u => hasMatch reg u)).reverse
        ++ dq.filter (fun u => !(hasMatch reg u))
  rw [h1, foldl_erase_filter dq _ hnd]
  simp

theorem claim_C3_amended_witness :
    ([uA, uB, uC, uD] : List UserC).Nodup
    ∧ prioritizePass regBD [uA, uB, uC, uD] =
        (([uA, uB, uC, uD] : List UserC).filter
          (fun u => hasMatch regBD u)).reverse
          ++ ([uA, uB, uC, uD] : List UserC).filter
            (fun u => !(hasMatch regBD u)) :=
  ⟨by decide, claim_C3_amended regBD [uA, uB, uC, uD] (by decide)⟩

/-! ## Calendar slot acceptance guard (core/slot_finder.py) -/

/-- UserConfig.earliest_allowed (bot_io/yaml_loader.py): min_date when set,
otherwise today shifted by relative_days, otherwise today.  Dates are
ordinals, so the timedelta shift is ordinal addition. -/
def earliest_allowed (u : UserC) (today : Nat) : Nat :=
  match u.min_date with
  | some d => d
  | none =>
      match u.relative_days with
      | some r => today + r
      | none => today

/-- The guard opening SlotFinder.find_first_free_slot_in_day_week:
Python `if dt and dt <= user.min_date`.  A None dt is falsy, so the guard
is false and the function falls through to not-booked; comparing a real
date against a None min_date raises TypeError. -/
def acceptGuard (dt : Option Nat) (min_date : Option Nat) : Except String Bool :=
  match dt with
  | none => Except.ok false
  | some d =>
      match min_date with
      | none => Except.error "TypeError: unorderable date and None"
      | some m => Except.ok (decide (d ≤ m))

/-- An identity with an absolute floor date (ordinal 1000). -/
def userFloor : UserC :=
  { alias_ := "dana", country := "UA", consulates := ["Krakow"],
    services := ["passport"], min_date := some 1000 }

/-- Claim C4 (refuted by the code, see the divergence record): the guard
accepts slot dates at or BEFORE min_date and rejects dates after it, the
reverse of the documented earliest-allowed floor.  Evaluated at the failing
input: for a floor of 1000, a slot strictly before the floor (999) is
accepted and a slot after the floor (1001) is rejected. -/
theorem claim_C4 :
    (∀ today, earliest_allowed userFloor today = 1000)
    ∧ acceptGuard (some 999) userFloor.min_date = Except.ok true
    ∧ acceptGuard (some 1001) userFloor.min_date = Except.ok false :=
  ⟨fun _ => rfl, rfl, rfl⟩

/-! ## Top-level exception handling of one attempt (SlotFinder.work) -/

/-- The try-body of SlotFinder.work: run the next_user hook, then login;
a falsy login aborts the attempt with not-booked, otherwise the result of
_find_slots (True, False or None) is returned.  Every stage may raise, and
a raise aborts the body with that exception. -/
def work_attempt (next_user : Except String Unit) (login : Except String Bool)
    (find_slots : Except String (Option Bool)) : Except String (Option Bool) := do
  next_user
  let ok ← login
  if ok then find_slots else pure (some false)

/-- SlotFinder.work: the try-body wrapped in a blanket `except Exception`
handler that fires the error hook with a screenshot and returns False. -/
def work (nu : Except String Unit) (lg : Except String Bool)
    (fs : Except String (Option Bool)) : Option Bool :=
  match work_attempt nu lg fs with
  | Except.ok r => r
  | Except.error _ => some false

/-- Claim C9: every exception raised inside a single identity's automation
attempt is caught at the top level of SlotFinder.work and converted into the
not-booked failure outcome; work is a total function into outcomes, so no
exception propagates into the scheduler loop. -/
theorem claim_C9 :
    ∀ (nu : Except String Unit) (lg : Except String Bool)
      (fs : Except String (Option Bool)) (e : String),
      work_attempt nu lg fs = Except.error e → work nu lg fs = some false := by
  intro nu lg fs e h
  unfold work
  rw [h]

theorem claim_C9_witness :
    work_attempt (Except.error "boom") (Except.ok true) (Except.ok (some true))
      = Except.error "boom"
    ∧ work (Except.error "boom") (Except.ok true) (Except.ok (some true))
      = some false :=
  ⟨rfl, claim_C9 (Except.error "boom") (Except.ok true) (Except.ok (some true))
    "boom" rfl⟩

/-! ## The booking persistence step (core/slot_finder.py line 622) -/

/-- The attribute names defined in the body of class YAMLLoader
(bot_io/yaml_loader.py): the class-level constant, the constructor and the
five methods.  There is no record_booked_slot among them. -/
def yamlLoaderClassAttrs : List String :=
  ["REQUIRED_FIELDS", "__init__", "load", "_parse_file", "_decrypt_password",
   "has_pending_services", "record_service_status"]

/-- Python attribute lookup on the YAMLLoader class object: a name missing
from the class body raises AttributeError. -/
def getattrYAMLLoader (name : String) : Except String Unit :=
  if name ∈ yamlLoaderClassAttrs then Except.ok ()
  else Except.error ("AttributeError: type object YAMLLoader has no attribute "
    ++ name)

/-- The success tail of find_first_free_slot_in_day_week (after the robot
probe, the blocked-slot acknowledgment and the its-clear dialog all
succeed): call YAMLLoader.record_booked_slot, then remove the consumed date
from the Free-Slot Registry, then return True. -/
def bookingSuccessTail (reg : Slots) (country cons service dateTok : String) :
    Except String (Slots × Bool) := do
  getattrYAMLLoader "record_booked_slot"
  pure (registryRemove reg country cons service dateTok, true)

/-- Claim C2 (refuted by the code, see the divergence record): the success
path calls YAMLLoader.record_booked_slot, a method that does not exist (the
class only defines record_service_status), so the booking is never
persisted, the registry keeps the consumed date, and the attempt ends as a
caught AttributeError reported to the scheduler as not-booked instead of
booked=true. -/
theorem claim_C2 :
    bookingSuccessTail regW "UA" "Krakow" "passport" "01.07.2025"
      = Except.error
          ("AttributeError: type object YAMLLoader has no attribute "
            ++ "record_booked_slot")
    ∧ work (Except.ok ()) (Except.ok true)
        (Except.map (fun p => some p.2)
          (bookingSuccessTail regW "UA" "Krakow" "passport" "01.07.2025"))
      = some false := by
  constructor
  · rfl
  · rfl

/-! ## Checkbox classifier and template location (core/gui_driver.py) -/

/-- The decision step of detect_checkbox_type_from_frame, applied to the two
best template-match scores: the larger score wins outright, and no
threshold is consulted, so the advertised "none" outcome is unreachable. -/
def detect_checkbox_type_from_frame (max_val_empty max_val_checked : ℚ) :
    String :=
  if max_val_checked ≥ max_val_empty then "checked" else "empty"

/-- The decision step of _locate: None (not found) exactly when the best
correlation score is below the supplied confidence. -/
def locateFound (max_val confidence : ℚ) : Bool :=
  !(decide (max_val < confidence))

/-- Claim C8 (refuted by the code, see the divergence record): _locate does
report not-found below its confidence threshold, but the checkbox
classifier ignores its documented threshold entirely: at scores far below
any threshold (0.1 and 0.2) it still answers "checked", and for no pair of
scores whatsoever does it answer "none". -/
theorem claim_C8 :
    (∀ (m conf : ℚ), locateFound m conf = true ↔ conf ≤ m)
    ∧ detect_checkbox_type_from_frame (1/10) (2/10) = "checked"
    ∧ ∀ (e c : ℚ), detect_checkbox_type_from_frame e c ≠ "none" := by
  refine ⟨?_, ?_, ?_⟩
  · intro m conf
    simp [locateFound]
  · unfold detect_checkbox_type_from_frame
    rw [if_pos (by norm_num)]
  · intro e c
    unfold detect_checkbox_type_from_frame
    split
    · intro h; exact absurd h (by decide)
    · intro h; exact absurd h (by decide)

/-! ## OCR token normalization and week parsing (core/slot_finder.py) -/

/-- Python str.strip: drop whitespace at both ends (char-level embedding,
since the token code never mixes surrogate issues). -/
def pyStrip (s : String) : String :=
  String.mk
    (((s.toList.dropWhile Char.isWhitespace).reverse.dropWhile
      Char.isWhitespace).reverse)

/-- Python str.replace with a single-character pattern: map every occurrence
of the character to the replacement. -/
def pyReplaceChar (s : String) (c r : Char) : String :=
  String.mk (s.toList.map (fun x => if x = c then r else x))

/-- The fullmatch of the raw pattern 0 dot two digits dot four digits, as
used to detect a lone-zero day. -/
def matchZeroDate (s : String) : Bool :=
  match s.toList with
  | ['0', '.', a, b, '.', c, d, e, f] =>
      a.isDigit && b.isDigit && c.isDigit && d.isDigit && e.isDigit && f.isDigit
  | _ => false

/-- SlotFinder.normalize_date_token: strip, replace Cyrillic З and Latin
z and Z by the digit 3, then rewrite a lone-zero day 0.mm.yyyy to
30.mm.yyyy by prefixing the digit 3. -/
def normalize_date_token (tok : String) : String :=
  let t := pyStrip tok
  let t := pyReplaceChar (pyReplaceChar (pyReplaceChar t 'З' '3') 'z' '3') 'Z' '3'
  if matchZeroDate t then "30" ++ String.mk (t.toList.drop 1) else t

/-- SlotFinder.normalize_tokens: normalize every token. -/
def normalize_tokens (tokens : List String) : List String :=
  tokens.map normalize_date_token

/-- The anchored date pattern (two digits dot two digits dot four digits)
compiled as date_re in parse_date_slots. -/
def isDateTok (s : String) : Bool :=
  match s.toList with
  | [a, b, '.', c, d, '.', e, f, g, i] =>
      a.isDigit && b.isDigit && c.isDigit && d.isDigit
        && e.isDigit && f.isDigit && g.isDigit && i.isDigit
  | _ => false

/-- Python tok.strip().isdigit(): the stripped token is non-empty and all
digits. -/
def isCountTok (s : String) : Bool :=
  let t := pyStrip s
  (t.toList != []) && t.toList.all Char.isDigit

/-- Python int() on the stripped digit token. -/
def digitsToNat (s : String) : Nat :=
  (pyStrip s).toList.foldl (fun acc c => acc * 10 + (c.toNat - '0'.toNat)) 0

/-- The inner scan of parse_date_slots: from the position after the end
date, find the first token whose strip is all digits; return its value and
the tokens after it. -/
def findCount : List String → Option (Nat × List String)
  | [] => none
  | t :: rest =>
      if isCountTok t then some (digitsToNat t, rest) else findCount rest

theorem findCount_length : ∀ (l : List String) (v : Nat) (r : List String),
    findCount l = some (v, r) → r.length < l.length := by
  intro l
  induction l with
  | nil => intro v r h; simp [findCount] at h
  | cons t rest ih =>
      intro v r h
      by_cases hc : isCountTok t
      · simp [findCount, hc] at h
        simp [← h.2]
      · simp only [findCount, if_neg hc] at h
        exact Nat.lt_trans (ih v r h) (by simp)

/-- The index loop of parse_date_slots over the already-normalized tokens:
a run starts at date, dash, date with at least those three tokens left; its
count is the next digit token; after a completed run the scan resumes just
past the count token, otherwise it advances one position. -/
def parseRuns : List String → List (String × String × Nat)
  | t0 :: t1 :: t2 :: rest =>
      if isDateTok t0 && (t1 == "-") && isDateTok t2 then
        match h : findCount rest with
        | some (v, rest2) => (t0, t2, v) :: parseRuns rest2
        | none => parseRuns (t1 :: t2 :: rest)
      else parseRuns (t1 :: t2 :: rest)
  | _ => []
termination_by l => l.length
decreasing_by
  · have hlen := findCount_length rest v rest2 h
    simp only [List.length_cons]
    omega
  · simp
  · simp

/-- SlotFinder.parse_date_slots: normalize all tokens first, then collect
the (start date, end date, slot count) triples. -/
def parse_date_slots (tokens : List String) : List (String × String × Nat) :=
  parseRuns (normalize_tokens tokens)

/-- A well-formed OCR week run: start date, a dash token, end date, then
gap tokens free of digit-only noise, then the open-slot count token. -/
structure WeekRun where
  startTok : String
  endTok : String
  gap : List String
  countTok : String
deriving DecidableEq, Repr

def WeekRun.tokens (b : WeekRun) : List String :=
  b.startTok :: "-" :: b.endTok :: (b.gap ++ [b.countTok])

def runsTokens (bs : List WeekRun) : List String :=
  (bs.map WeekRun.tokens).flatten

abbrev goodRun (b : WeekRun) : Prop :=
  isDateTok b.startTok = true ∧ isDateTok b.endTok = true
    ∧ (∀ g ∈ b.gap, isCountTok g = false) ∧ isCountTok b.countTok = true

theorem findCount_gap : ∀ (gap : List String) (m : String) (rest : List String),
    (∀ g ∈ gap, isCountTok g = false) → isCountTok m = true →
    findCount (gap ++ m :: rest) = some (digitsToNat m, rest) := by
  intro gap
  induction gap with
  | nil =>
      intro m rest _ hm
      simp [findCount, hm]
  | cons g t ih =>
      intro m rest hg hm
      have hgf : isCountTok g = false := hg g (List.mem_cons_self _ _)
      simp only [List.cons_append, findCount, hgf]
      rw [if_neg (by simp [hgf])]
      exact ih m rest (fun x hx => hg x (List.mem_cons_of_mem _ hx)) hm

theorem parseRuns_cons_found (t0 t1 t2 : String) (rest : List String)
    (hc : (isDateTok t0 && (t1 == "-") && isDateTok t2) = true)
    (v : Nat) (rest2 : List String) (hf : findCount rest = some (v, rest2)) :
    parseRuns (t0 :: t1 :: t2 :: rest) = (t0, t2, v) :: parseRuns rest2 := by
  rw [parseRuns, if_pos hc]
  split
  · next v' r' h =>
      rw [hf] at h
      cases h
      rfl
  · next h => rw [hf] at h; cases h

theorem parseRuns_runs : ∀ (bs : List WeekRun), (∀ b ∈ bs, goodRun b) →
    parseRuns (runsTokens bs)
      = bs.map (fun b => (b.startTok, b.endTok, digitsToNat b.countTok)) := by
  intro bs
  induction bs with
  | nil => intro _; simp [runsTokens, parseRuns]
  | cons b t ih =>
      intro hg
      obtain ⟨h1, h2, h3, h4⟩ := hg b (List.mem_cons_self _ _)
      have htok : runsTokens (b :: t)
          = b.startTok :: "-" :: b.endTok :: (b.gap ++ (b.countTok :: runsTokens t)) := by
        simp [runsTokens, WeekRun.tokens, List.append_assoc]
      rw [htok]
      rw [parseRuns_cons_found _ _ _ _ (by simp [h1, h2]) _ _
        (findCount_gap b.gap b.countTok (runsTokens t) h3 h4)]
      rw [ih (fun x hx => hg x (List.mem_cons_of_mem _ hx))]
      simp

/-- Claim C5: on every token list whose normalization is a concatenation of
well-formed week runs (date, dash, date, digit-free gap, count token),
parse_date_slots applies the normalization pass first and then returns
exactly one (week_start, week_end, open_count) triple per run. -/
theorem claim_C5 :
    ∀ (tokens : List String) (bs : List WeekRun),
      normalize_tokens tokens = runsTokens bs →
      (∀ b ∈ bs, goodRun b) →
      parse_date_slots tokens
        = bs.map (fun b => (b.startTok, b.endTok, digitsToNat b.countTok)) := by
  intro tokens bs h hg
  unfold parse_date_slots
  rw [h]
  exact parseRuns_runs bs hg

/-- The single run of the specification's example. -/
def exampleRun : WeekRun :=
  { startTok := "30.06.2025", endTok := "06.06.2025", gap := [],
    countTok := "16" }

theorem claim_C5_witness :
    normalize_tokens ["0.06.2025", "-", "06.06.2025", "16"]
      = runsTokens [exampleRun]
    ∧ goodRun exampleRun
    ∧ parse_date_slots ["0.06.2025", "-", "06.06.2025", "16"]
      = [("30.06.2025", "06.06.2025", 16)] := by
  refine ⟨by decide, by decide, ?_⟩
  rw [claim_C5 ["0.06.2025", "-", "06.06.2025", "16"] [exampleRun]
    (by decide) (by decide)]
  decide

/-! ## Fuzzy text comparison (core/gui_driver.py, arrays_fuzzy_equal)

The per-token similarity is difflib.SequenceMatcher(None, w, q).ratio():
twice the total size of the Ratcliff-Obershelp matching blocks over the sum
of lengths.  The OCR tokens are far below the 200-character autojunk
cutoff, so no junk handling applies.  Scores are exact rationals here; the
CPython float comparisons against 0.7 agree with the exact rational
comparisons for all window and token lengths below astronomical sizes,
since a fraction with a small denominator cannot fall inside the half-ulp
window around the float literal 0.7. -/

/-- Length of the common prefix run of two character lists. -/
def runLen : List Char → List Char → Nat
  | a :: as, b :: bs => if a = b then runLen as bs + 1 else 0
  | _, _ => 0

/-- Every candidate block (start in a, start in b, run length), listed with
ascending start positions: the scan order of difflib's find_longest_match,
whose strict-improvement update keeps the first maximal block. -/
def lcsCandidates (a b : List Char) : List (Nat × Nat × Nat) :=
  ((List.range a.length).map (fun i =>
    (List.range b.length).map (fun j =>
      (i, j, runLen (a.drop i) (b.drop j))))).flatten

/-- The strict-improvement fold of find_longest_match. -/
def pickBest : List (Nat × Nat × Nat) → (Nat × Nat × Nat) → Nat × Nat × Nat
  | [], best => best
  | c :: rest, best => pickBest rest (if best.2.2 < c.2.2 then c else best)

/-- difflib find_longest_match over whole sequences (no junk): the longest
common substring, earliest in a then in b among ties; (0, 0, 0) when there
is none. -/
def findLongestMatch (a b : List Char) : Nat × Nat × Nat :=
  pickBest (lcsCandidates a b) (0, 0, 0)

theorem runLen_le_left : ∀ (a b : List Char), runLen a b ≤ a.length := by
  intro a
  induction a with
  | nil => intro b; cases b <;> simp [runLen]
  | cons x xs ih =>
      intro b
      cases b with
      | nil => simp [runLen]
      | cons y ys =>
          by_cases h : x = y
          · simp only [runLen, if_pos h, List.length_cons]
            exact Nat.succ_le_succ (ih ys)
          · simp [runLen, h]

theorem runLen_le_right : ∀ (a b : List Char), runLen a b ≤ b.length := by
  intro a
  induction a with
  | nil => intro b; cases b <;> simp [runLen]
  | cons x xs ih =>
      intro b
      cases b with
      | nil => simp [runLen]
      | cons y ys =>
          by_cases h : x = y
          · simp only [runLen, if_pos h, List.length_cons]
            exact Nat.succ_le_succ (ih ys)
          · simp [runLen, h]

theorem pickBest_mem : ∀ (l : List (Nat × Nat × Nat)) (init : Nat × Nat × Nat),
    pickBest l init = init ∨ pickBest l init ∈ l := by
  intro l
  induction l with
  | nil => intro init; left; rfl
  | cons c rest ih =>
      intro init
      simp only [pickBest]
      rcases ih (if init.2.2 < c.2.2 then c else init) with h | h
      · by_cases hc : init.2.2 < c.2.2
        · right
          rw [h, if_pos hc]
          exact List.mem_cons_self _ _
        · left
          rw [h, if_neg hc]
      · right
        exact List.mem_cons_of_mem _ h

theorem lcsCandidates_mem_bound (a b : List Char) :
    ∀ c ∈ lcsCandidates a b, c.1 + c.2.2 ≤ a.length ∧ c.2.1 + c.2.2 ≤ b.length := by
  intro c hc
  unfold lcsCandidates at hc
  simp only [List.mem_flatten, List.mem_map] at hc
  obtain ⟨l, ⟨i, hi, rfl⟩, hcl⟩ := hc
  simp only [List.mem_map] at hcl
  obtain ⟨j, hj, rfl⟩ := hcl
  simp only [List.mem_range] at hi hj
  dsimp only
  constructor
  · have h1 : runLen (a.drop i) (b.drop j) ≤ (a.drop i).length :=
      runLen_le_left _ _
    simp only [List.length_drop] at h1
    omega
  · have h2 : runLen (a.drop i) (b.drop j) ≤ (b.drop j).length :=
      runLen_le_right _ _
    simp only [List.length_drop] at h2
    omega

theorem flm_bound (a b : List Char) :
    (findLongestMatch a b).1 + (findLongestMatch a b).2.2 ≤ a.length
    ∧ (findLongestMatch a b).2.1 + (findLongestMatch a b).2.2 ≤ b.length := by
  unfold findLongestMatch
  rcases pickBest_mem (lcsCandidates a b) (0, 0, 0) with h | h
  · rw [h]; simp
  · exact lcsCandidates_mem_bound a b _ h

/-- The total size of difflib's matching blocks: take the longest match and
recurse on the parts left and right of it. -/
def matchesTotal (a b : List Char) : Nat :=
  match hr : findLongestMatch a b with
  | (i, j, k) =>
      if k = 0 then 0
      else
        matchesTotal (a.take i) (b.take j) + k
          + matchesTotal (a.drop (i + k)) (b.drop (j + k))
termination_by a.length + b.length
decreasing_by
  all_goals
    obtain ⟨h1, h2⟩ := flm_bound a b
    rw [hr] at h1 h2
    simp only at h1 h2
    simp only [List.length_take, List.length_drop]
    omega

theorem matchesTotal_step (a b : List Char) (i j k : Nat)
    (h : findLongestMatch a b = (i, j, k)) (hk : k ≠ 0) :
    matchesTotal a b = matchesTotal (a.take i) (b.take j) + k
      + matchesTotal (a.drop (i + k)) (b.drop (j + k)) := by
  rw [matchesTotal]
  split
  next i' j' k' hr =>
    rw [h] at hr
    simp only [Prod.mk.injEq] at hr
    obtain ⟨rfl, rfl, rfl⟩ := hr
    rw [if_neg hk]

theorem matchesTotal_zero_of (a b : List Char)
    (h : (findLongestMatch a b).2.2 = 0) : matchesTotal a b = 0 := by
  rw [matchesTotal]
  split
  next i' j' k' hr =>
    rw [hr] at h
    simp only at h
    rw [if_pos h]

theorem matchesTotal_nil_left (b : List Char) : matchesTotal [] b = 0 :=
  matchesTotal_zero_of [] b rfl

/-- difflib SequenceMatcher.ratio as an exact rational: 2M over the total
length, and 1.0 when both strings are empty. -/
def ratio (w q : String) : ℚ :=
  let M := matchesTotal w.toList q.toList
  let T := w.length + q.length
  if T = 0 then 1 else (2 * M : ℚ) / (T : ℚ)

/-- One step of the counting loop of arrays_fuzzy_equal: a position counts
when both tokens are empty, or both are non-empty and their ratio reaches
the threshold; an empty paired with a non-empty counts as dissimilar. -/
def countStep (threshold : ℚ) (acc : Nat) (p : String × String) : Nat :=
  if p.1 = "" ∧ p.2 = "" then acc + 1
  else if p.1 = "" ∨ p.2 = "" then acc
  else if threshold ≤ ratio p.1 p.2 then acc + 1 else acc

/-- The count of similar positions over the zipped window and query. -/
def countEqual (window query : List String) (threshold : ℚ) : Nat :=
  (window.zip query).foldl (countStep threshold) 0

/-- arrays_fuzzy_equal: reject different lengths outright, then accept when
the fraction of counting positions reaches the threshold.  (The Python
division raises ZeroDivisionError on an empty window, so the function is
only ever applied to non-empty windows.) -/
def arrays_fuzzy_equal (window query : List String) (threshold : ℚ) : Bool :=
  if window.length ≠ query.length then false
  else decide (threshold ≤ (countEqual window query threshold : ℚ)
    / (window.length : ℚ))

/-! ### Evaluation lemmas for the similarity score -/

theorem runLen_self : ∀ (a : List Char), runLen a a = a.length := by
  intro a
  induction a with
  | nil => simp [runLen]
  | cons x xs ih => simp [runLen, ih]

theorem pickBest_init_le : ∀ (l : List (Nat × Nat × Nat)) (init : Nat × Nat × Nat),
    init.2.2 ≤ (pickBest l init).2.2 := by
  intro l
  induction l with
  | nil => intro init; exact le_refl _
  | cons c rest ih =>
      intro init
      simp only [pickBest]
      refine le_trans ?_ (ih _)
      by_cases hc : init.2.2 < c.2.2
      · rw [if_pos hc]; exact le_of_lt hc
      · rw [if_neg hc]

theorem pickBest_mem_le : ∀ (l : List (Nat × Nat × Nat)) (init c : Nat × Nat × Nat),
    c ∈ l → c.2.2 ≤ (pickBest l init).2.2 := by
  intro l
  induction l with
  | nil => intro init c hc; simp at hc
  | cons c' rest ih =>
      intro init c hc
      simp only [pickBest]
      rcases List.mem_cons.mp hc with h1 | h2
      · subst h1
        refine le_trans ?_ (pickBest_init_le rest _)
        by_cases hc' : init.2.2 < c.2.2
        · rw [if_pos hc']
        · rw [if_neg hc']; omega
      · exact ih _ c h2

theorem mem_lcsCandidates_self (a : List Char) (ha : a ≠ []) :
    (0, 0, runLen a a) ∈ lcsCandidates a a := by
  have hpos : 0 < a.length := List.length_pos.mpr ha
  unfold lcsCandidates
  simp only [List.mem_flatten, List.mem_map]
  refine ⟨(List.range a.length).map (fun j =>
    (0, j, runLen (a.drop 0) (a.drop j))), ⟨0, ?_, rfl⟩, ?_⟩
  · simpa using hpos
  · simp only [List.mem_map]
    exact ⟨0, by simpa using hpos, by simp⟩

theorem flm_self (a : List Char) (ha : a ≠ []) :
    findLongestMatch a a = (0, 0, a.length) := by
  have hpos : 0 < a.length := List.length_pos.mpr ha
  have hmem := mem_lcsCandidates_self a ha
  rw [runLen_self] at hmem
  have hk : a.length ≤ (findLongestMatch a a).2.2 :=
    pickBest_mem_le _ _ _ hmem
  have hr : findLongestMatch a a = pickBest (lcsCandidates a a) (0, 0, 0) := rfl
  rcases pickBest_mem (lcsCandidates a a) (0, 0, 0) with h | h
  · rw [hr, h] at hk
    dsimp only at hk
    omega
  · rw [← hr] at h
    have hb := lcsCandidates_mem_bound a a _ h
    have h1 : (findLongestMatch a a).1 = 0 := by omega
    have h2 : (findLongestMatch a a).2.1 = 0 := by omega
    have h3 : (findLongestMatch a a).2.2 = a.length := by omega
    rw [Prod.ext_iff, Prod.ext_iff]
    exact ⟨h1, h2, h3⟩

theorem string_length_toList (w : String) : w.length = w.toList.length := rfl

theorem ratio_self (w : String) : ratio w w = 1 := by
  by_cases hw : w.toList = []
  · have h0 : w.length = 0 := by
      rw [string_length_toList, hw]
      rfl
    unfold ratio
    rw [if_pos (by omega)]
  · have hlen : 0 < w.toList.length := List.length_pos.mpr hw
    have hM : matchesTotal w.toList w.toList = w.toList.length := by
      rw [matchesTotal_step w.toList w.toList 0 0 w.toList.length
        (flm_self w.toList hw) (by omega), List.take_zero,
        matchesTotal_nil_left, Nat.zero_add, List.drop_length,
        matchesTotal_nil_left]
      omega
    unfold ratio
    rw [hM]
    rw [if_neg (by rw [string_length_toList]; omega)]
    rw [string_length_toList]
    have h2 : ((w.toList.length + w.toList.length : Nat) : ℚ)
        = 2 * (w.toList.length : ℚ) := by push_cast; ring
    rw [h2]
    rw [div_self (by positivity)]

/-! ### Claim C6 -/

/-- Claim C6, counterexample: a 4-token window that pairs an empty token
against a non-empty one in its last position is ACCEPTED by
arrays_fuzzy_equal at the 0.7 threshold, because the three perfect
positions already give a matching fraction of 3/4; the claim asserts such a
window is rejected regardless of the other positions. -/
theorem claim_C6_counterexample :
    arrays_fuzzy_equal ["ab", "cd", "ef", ""] ["ab", "cd", "ef", "xy"]
      (7/10) = true := by
  have hstep : ∀ (acc : Nat) (w : String), w ≠ "" →
      countStep (7/10) acc (w, w) = acc + 1 := by
    intro acc w hw
    unfold countStep
    rw [if_neg (by simp [hw]), if_neg (by simp [hw]),
      if_pos (by rw [ratio_self]; norm_num)]
  have hc : countEqual ["ab", "cd", "ef", ""] ["ab", "cd", "ef", "xy"]
      (7/10) = 3 := by
    unfold countEqual
    simp only [List.zip_cons_cons, List.zip_nil_right, List.foldl_cons,
      List.foldl_nil]
    rw [hstep 0 "ab" (by simp), hstep 1 "cd" (by simp), hstep 2 "ef" (by simp)]
    unfold countStep
    rw [if_neg (by simp), if_pos (by simp)]
  unfold arrays_fuzzy_equal
  rw [if_neg (by simp), hc]
  simp only [decide_eq_true_eq]
  norm_num

theorem countEqual_full : ∀ (l : List (String × String)) (th : ℚ) (acc : Nat),
    (∀ p ∈ l, (p.1 = "" ∧ p.2 = "") ∨ (p.1 ≠ "" ∧ p.2 ≠ "" ∧ th ≤ ratio p.1 p.2)) →
    l.foldl (countStep th) acc = acc + l.length := by
  intro l
  induction l with
  | nil => intro th acc _; simp
  | cons p t ih =>
      intro th acc hp
      have hstep : countStep th acc p = acc + 1 := by
        rcases hp p (List.mem_cons_self _ _) with h | h
        · unfold countStep
          rw [if_pos h]
        · unfold countStep
          rw [if_neg (by tauto), if_neg (by tauto), if_pos h.2.2]
      simp only [List.foldl_cons, hstep]
      rw [ih th (acc + 1) (fun q hq => hp q (List.mem_cons_of_mem _ hq))]
      simp only [List.length_cons]
      omega

/-- Claim C6 amended: a window in which EVERY position is similar (both
tokens empty, or per-token ratio at or above 0.7) is accepted; but an
empty-vs-nonempty position does not by itself cause rejection — the window
is rejected exactly when the fraction of similar positions falls below 0.7,
an empty-vs-nonempty pair merely contributing a non-similar position. -/
theorem claim_C6_amended :
    (∀ (window query : List String), window ≠ [] →
      window.length = query.length →
      (∀ p ∈ window.zip query,
        (p.1 = "" ∧ p.2 = "") ∨ (p.1 ≠ "" ∧ p.2 ≠ "" ∧ (7:ℚ)/10 ≤ ratio p.1 p.2)) →
      arrays_fuzzy_equal window query (7/10) = true)
    ∧ (∀ (window query : List String), window.length = query.length →
      10 * countEqual window query (7/10) < 7 * window.length →
      arrays_fuzzy_equal window query (7/10) = false) := by
  constructor
  · intro window query hne hlen hall
    have hzlen : (window.zip query).length = window.length := by
      rw [List.length_zip, hlen, Nat.min_self]
    have hc : countEqual window query (7/10) = window.length := by
      unfold countEqual
      rw [countEqual_full _ _ _ hall, hzlen, Nat.zero_add]
    unfold arrays_fuzzy_equal
    rw [if_neg (by omega), hc]
    simp only [decide_eq_true_eq]
    have hpos : 0 < window.length := List.length_pos.mpr hne
    rw [div_self (by positivity)]
    norm_num
  · intro window query hlen hfrac
    have hpos : 0 < window.length := by by_contra h; omega
    unfold arrays_fuzzy_equal
    rw [if_neg (by omega)]
    simp only [decide_eq_false_iff_not, not_le]
    rw [div_lt_div_iff₀ (by positivity) (by norm_num)]
    have hc : ((10 * countEqual window query (7/10) : Nat) : ℚ)
        < ((7 * window.length : Nat) : ℚ) := by exact_mod_cast hfrac
    push_cast at hc
    linarith

theorem claim_C6_amended_witness :
    arrays_fuzzy_equal ["ab"] ["ab"] (7/10) = true
    ∧ 10 * countEqual [""] ["xy"] (7/10) < 7 * ([""] : List String).length
    ∧ arrays_fuzzy_equal [""] ["xy"] (7/10) = false := by
  have hc0 : countEqual [""] ["xy"] (7/10) = 0 := by
    unfold countEqual countStep
    simp
  refine ⟨?_, by rw [hc0]; simp, ?_⟩
  · refine claim_C6_amended.1 ["ab"] ["ab"] (by simp) rfl ?_
    intro p hp
    simp only [List.zip_cons_cons, List.zip_nil_right, List.mem_cons,
      List.not_mem_nil, or_false] at hp
    subst hp
    right
    refine ⟨by simp, by simp, by rw [ratio_self]; norm_num⟩
  · refine claim_C6_amended.2 [""] ["xy"] rfl ?_
    rw [hc0]
    simp

end ConsulService
